import Mathlib

/-!
Verification of the MDF band-limit patcher (mdfham2m.py).

The program reads a binary MDF file into a buffer, replaces up to three
occurrences of the band-limit pattern DC 05 A4 06 by A0 05 68 06, and then
repairs the 16-bit additive checksum by perturbing the bytes of the embedded
copyright text "ALL RIGHTS RESERVED".  Buffers are modelled as `List Nat`
(each element a byte value), Python's unbounded signed integers as `Int`,
and the possible `ValueError` from an out-of-range `bytearray` assignment
as `Option`.
-/

namespace SM50

/-- Model of `checksum`: add all of the bytes as unsigned values and mask the
result with 0xFFFF (Python's `cksum & 0xFFFF`). -/
def checksum (buffer : List Nat) : Nat :=
  (buffer.foldl (fun cksum val => cksum + val) 0) &&& 0xFFFF

/-- Model of Python's `bytes.replace(needle, repl, count)` as used in the
program (the needles are nonempty): scan the buffer left to right and
replace the first `count` non-overlapping occurrences of `needle` by
`repl`, leaving every other byte in place.  The scan resumes after the
replaced occurrence, so replacement text is never rescanned. -/
def pyReplace (needle repl : List Nat) : Nat → List Nat → List Nat
  | 0, buf => buf
  | _ + 1, [] => []
  | c + 1, b :: bs =>
    if needle.isPrefixOf (b :: bs) then
      repl ++ pyReplace needle repl c ((b :: bs).drop needle.length)
    else
      b :: pyReplace needle repl (c + 1) bs
termination_by c buf => c + buf.length
decreasing_by
  all_goals simp [List.length_drop]
  all_goals omega

/-- Model of `replace_band_limits`: replace the band range 150-170MHz with
144-164MHz, i.e. up to 3 occurrences of DC 05 A4 06 by A0 05 68 06. -/
def replace_band_limits (buffer : List Nat) : List Nat :=
  pyReplace [0xDC, 0x05, 0xA4, 0x06] [0xA0, 0x05, 0x68, 0x06] 3 buffer

/-- The reconciliation anchor `original = b'ALL RIGHTS RESERVED'` of
`fixup_checksum`, as its list of ASCII byte values. -/
def original : List Nat :=
  [65, 76, 76, 32, 82, 73, 71, 72, 84, 83, 32, 82, 69, 83, 69, 82, 86, 69, 68]

/-- Model of the perturbation loop of `fixup_checksum`: walk the anchor bytes
carrying the signed `difference`; stop as soon as it reaches zero, skip
space bytes (value 32), and otherwise add to the byte a change equal to the
difference clamped to [-32, 32], subtracting the change from the difference.
A Python `bytearray` assignment raises `ValueError` when the new value is
outside [0, 256); that failure is modelled as `none`. -/
def perturb (d : Int) : List Nat → Option (List Nat)
  | [] => some []
  | b :: bs =>
    if d = 0 then some (b :: bs)
    else if b = 32 then (perturb d bs).map (fun l => b :: l)
    else
      let change : Int := if d > 0 then min 32 d else max (-32) d
      let v : Int := (b : Int) + change
      if 0 ≤ v ∧ v < 256 then (perturb (d - change) bs).map (fun l => v.toNat :: l)
      else none

/-- Model of `fixup_checksum`: compute the signed difference between the
target checksum and the buffer's checksum, perturb a copy of the anchor text
to absorb that difference, and replace the first occurrence of the anchor in
the buffer by the perturbed copy.  `none` models an uncaught `ValueError`
from the perturbation loop. -/
def fixup_checksum (buffer : List Nat) (original_checksum : Nat) :
    Option (List Nat) :=
  let new_checksum := checksum buffer
  let difference : Int := (original_checksum : Int) - (new_checksum : Int)
  (perturb difference original).map
    (fun replaced => pyReplace original replaced 1 buffer)

/-- Observable outcome of the `__main__` driver on a buffer it has read:
either the process exits with a code before writing, or it writes a buffer
to the temporary file and publishes it. -/
inductive MainResult
  | exits (code : Nat)
  | writes (content : List Nat)

/-- Model of the buffer-processing part of `__main__`: compute the original
checksum, update the band limits, fix up the checksum, recompute, and either
exit with code 3 on a mismatch or write the fixed buffer.  `none` models an
uncaught exception from `fixup_checksum`. -/
def main_pipeline (buffer : List Nat) : Option MainResult :=
  let original_checksum := checksum buffer
  let updated_buffer := replace_band_limits buffer
  (fixup_checksum updated_buffer original_checksum).map
    (fun fixed_buffer =>
      let new_checksum := checksum fixed_buffer
      if new_checksum ≠ original_checksum then MainResult.exits 3
      else MainResult.writes fixed_buffer)

/-- Specification-level notion of an occurrence: the needle occurs in `buf`
at position `p` when the `needle.length` bytes of `buf` starting at `p` are
exactly `needle`. -/
def matchesAt (needle buf : List Nat) (p : Nat) : Prop :=
  (buf.drop p).take needle.length = needle

/-- Specification-level count of all positions at which the needle occurs in
the buffer (occurrences in the plain, possibly overlapping sense). -/
def occCount (needle buf : List Nat) : Nat :=
  (List.range (buf.length + 1)).countP
    (fun p => (buf.drop p).take needle.length == needle)

/-- Specification-level list of the start positions of the left-to-right,
non-overlapping occurrences of the needle in the buffer: exactly the
occurrences that `bytes.replace` with an unlimited count would rewrite. -/
def occs (needle : List Nat) : List Nat → List Nat
  | [] => []
  | b :: bs =>
    if h : needle.isPrefixOf (b :: bs) ∧ 0 < needle.length then
      0 :: (occs needle ((b :: bs).drop needle.length)).map
        (fun p => p + needle.length)
    else
      (occs needle bs).map (fun p => p + 1)
termination_by buf => buf.length
decreasing_by
  all_goals simp [List.length_drop]
  all_goals omega

/-- Specification-level splice: overwrite the bytes of `buf` starting at
position `p` with `repl`, leaving all bytes outside that range unchanged. -/
def writeAt (repl : List Nat) (p : Nat) (buf : List Nat) : List Nat :=
  buf.take p ++ repl ++ buf.drop (p + repl.length)

/-- Specification-level replacement: splice `repl` into the buffer at each of
the given positions in turn. -/
def replaceAtPositions (repl : List Nat) (ps : List Nat) (buf : List Nat) :
    List Nat :=
  ps.foldl (fun b p => writeAt repl p b) buf

/-- Masking a natural number with 0xFFFF is reduction modulo 65536. -/
theorem land_ffff (n : Nat) : n &&& 65535 = n % 65536 := by
  apply Nat.eq_of_testBit_eq
  intro i
  rw [Nat.testBit_land]
  have h1 : (65535 : Nat) = 2 ^ 16 - 1 := by norm_num
  have h2 : (65536 : Nat) = 2 ^ 16 := by norm_num
  rw [h1, h2, Nat.testBit_two_pow_sub_one, Nat.testBit_mod_two_pow, Bool.and_comm]

/-- The checksum is the byte sum reduced modulo 65536. -/
theorem checksum_eq_sum_mod (buffer : List Nat) :
    checksum buffer = buffer.sum % 65536 := by
  unfold checksum
  rw [land_ffff]
  congr 1
  rw [List.sum_eq_foldl]

/-- Unfolding equation: the loop body returns the remaining bytes unchanged
once the difference reaches zero. -/
theorem perturb_zero (bs : List Nat) : perturb 0 bs = some bs := by
  cases bs <;> simp [perturb]

/-- Unfolding equation: a space byte is skipped unmodified. -/
theorem perturb_cons_space (d : Int) (bs : List Nat) (hz : d ≠ 0) :
    perturb d (32 :: bs) = (perturb d bs).map (fun l => 32 :: l) := by
  simp [perturb, hz]

/-- Unfolding equation for a non-space byte while the difference is nonzero:
apply the clamped change if the new value is a legal byte, else fail. -/
theorem perturb_cons_step (d : Int) (b : Nat) (bs : List Nat)
    (hz : d ≠ 0) (hsp : b ≠ 32) :
    perturb d (b :: bs) =
      if 0 ≤ (b : Int) + (if d > 0 then min 32 d else max (-32) d) ∧
          (b : Int) + (if d > 0 then min 32 d else max (-32) d) < 256 then
        (perturb (d - (if d > 0 then min 32 d else max (-32) d)) bs).map
          (fun l => ((b : Int) + (if d > 0 then min 32 d else max (-32) d)).toNat :: l)
      else none := by
  simp [perturb, hz, hsp]

/-- The perturbation loop never fails on bytes in [32, 223], keeps the byte
count, produces only valid byte values, and leaves every byte position
holding a space (value 32) unchanged. -/
theorem perturb_total (bs : List Nat) :
    ∀ d : Int, (∀ b ∈ bs, 32 ≤ b ∧ b ≤ 223) →
      ∃ l, perturb d bs = some l ∧ l.length = bs.length ∧
        (∀ x ∈ l, x ≤ 255) ∧
        (∀ i : Nat, bs[i]? = some 32 → l[i]? = some 32) := by
  induction bs with
  | nil =>
    intro d _
    exact ⟨[], rfl, rfl, by simp, fun i h => h⟩
  | cons b bs ih =>
    intro d hb
    by_cases hd : d = 0
    · subst hd
      refine ⟨b :: bs, perturb_zero _, rfl, ?_, fun i h => h⟩
      intro x hx
      exact le_trans (hb x hx).2 (by norm_num)
    · by_cases hsp : b = 32
      · subst hsp
        obtain ⟨l, hl, hlen, hle, hsk⟩ :=
          ih d (fun x hx => hb x (List.mem_cons_of_mem _ hx))
        refine ⟨32 :: l, ?_, by simpa using hlen, ?_, ?_⟩
        · rw [perturb_cons_space d bs hd, hl, Option.map_some']
        · intro x hx
          rcases List.mem_cons.mp hx with h | h
          · omega
          · exact hle x h
        · intro i hi
          cases i with
          | zero => simp
          | succ j =>
            simp only [List.getElem?_cons_succ] at hi ⊢
            exact hsk j hi
      · have hbb := hb b (List.mem_cons_self b bs)
        have hbl : (32 : Int) ≤ (b : Int) := by exact_mod_cast hbb.1
        have hbu : (b : Int) ≤ 223 := by exact_mod_cast hbb.2
        obtain ⟨ch, hcheq, hch1, hch2⟩ :
            ∃ ch : Int, (if d > 0 then min 32 d else max (-32) d) = ch ∧
              -32 ≤ ch ∧ ch ≤ 32 := by
          rcases lt_trichotomy 0 d with hpos | hz | hneg
          · rcases le_or_lt d 32 with h | h
            · exact ⟨d, by rw [if_pos hpos, min_eq_right h], by omega, h⟩
            · exact ⟨32, by rw [if_pos hpos, min_eq_left h.le], by omega, le_refl _⟩
          · exact absurd hz.symm hd
          · rcases le_or_lt (-32 : Int) d with h | h
            · exact ⟨d, by rw [if_neg (by omega), max_eq_right h], h, by omega⟩
            · exact ⟨-32, by rw [if_neg (by omega), max_eq_left h.le],
                le_refl _, by omega⟩
        have hv0 : 0 ≤ (b : Int) + ch := by omega
        have hv1 : (b : Int) + ch < 256 := by omega
        obtain ⟨l, hl, hlen, hle, hsk⟩ :=
          ih (d - ch) (fun x hx => hb x (List.mem_cons_of_mem _ hx))
        refine ⟨((b : Int) + ch).toNat :: l, ?_, by simpa using hlen, ?_, ?_⟩
        · rw [perturb_cons_step d b bs hd hsp, hcheq, if_pos ⟨hv0, hv1⟩, hl,
            Option.map_some']
        · intro x hx
          rcases List.mem_cons.mp hx with h | h
          · subst h
            omega
          · exact hle x h
        · intro i hi
          cases i with
          | zero =>
            simp only [List.getElem?_cons_zero, Option.some.injEq] at hi
            exact absurd hi hsp
          | succ j =>
            simp only [List.getElem?_cons_succ] at hi ⊢
            exact hsk j hi

/-- When the magnitude of the difference is at most 32 per non-space byte,
the perturbation loop absorbs it exactly: the produced bytes sum to the
original sum plus the difference. -/
theorem perturb_sum (bs : List Nat) :
    ∀ d : Int, d.natAbs ≤ 32 * bs.countP (fun x => x != 32) →
      ∀ l, perturb d bs = some l → (l.sum : Int) = (bs.sum : Int) + d := by
  induction bs with
  | nil =>
    intro d hbud l hl
    simp only [List.countP_nil, Nat.mul_zero, Nat.le_zero,
      Int.natAbs_eq_zero] at hbud
    subst hbud
    rw [perturb_zero, Option.some.injEq] at hl
    subst hl
    simp
  | cons b bs ih =>
    intro d hbud l hl
    by_cases hz : d = 0
    · subst hz
      rw [perturb_zero, Option.some.injEq] at hl
      subst hl
      simp
    · by_cases hsp : b = 32
      · subst hsp
        rw [perturb_cons_space d bs hz, Option.map_eq_some'] at hl
        obtain ⟨l', hl', rfl⟩ := hl
        have hcnt : (32 :: bs).countP (fun x => x != 32)
            = bs.countP (fun x => x != 32) := by
          simp [List.countP_cons]
        have hs := ih d (by omega) l' hl'
        push_cast [List.sum_cons]
        push_cast at hs
        omega
      · have hcnt : (b :: bs).countP (fun x => x != 32)
            = bs.countP (fun x => x != 32) + 1 := by
          simp [List.countP_cons, hsp]
        obtain ⟨ch, hcheq, hbudget⟩ :
            ∃ ch : Int, (if d > 0 then min 32 d else max (-32) d) = ch ∧
              (d - ch).natAbs ≤ 32 * bs.countP (fun x => x != 32) := by
          rcases lt_trichotomy 0 d with hpos | hz' | hneg
          · rcases le_or_lt d 32 with h | h
            · exact ⟨d, by rw [if_pos hpos, min_eq_right h], by omega⟩
            · exact ⟨32, by rw [if_pos hpos, min_eq_left h.le], by omega⟩
          · exact absurd hz'.symm hz
          · rcases le_or_lt (-32 : Int) d with h | h
            · exact ⟨d, by rw [if_neg (by omega), max_eq_right h], by omega⟩
            · exact ⟨-32, by rw [if_neg (by omega), max_eq_left h.le], by omega⟩
        rw [perturb_cons_step d b bs hz hsp, hcheq] at hl
        by_cases hv : 0 ≤ (b : Int) + ch ∧ (b : Int) + ch < 256
        · rw [if_pos hv] at hl
          rw [Option.map_eq_some'] at hl
          obtain ⟨l', hl', rfl⟩ := hl
          have hs := ih (d - ch) hbudget l' hl'
          push_cast [List.sum_cons]
          rw [Int.toNat_of_nonneg hv.1]
          push_cast at hs
          omega
        · rw [if_neg hv] at hl
          exact absurd hl (by simp)

/-- Boolean prefix test implies the prefix relation. -/
theorem prefixRel_of_isPrefixOf {l₁ l₂ : List Nat}
    (h : l₁.isPrefixOf l₂ = true) : l₁ <+: l₂ :=
  List.isPrefixOf_iff_prefix.mp h

/-- The prefix relation implies the boolean prefix test. -/
theorem isPrefixOf_of_prefixRel {l₁ l₂ : List Nat}
    (h : l₁ <+: l₂) : l₁.isPrefixOf l₂ = true :=
  List.isPrefixOf_iff_prefix.mpr h

/-- Same-length replacement preserves the buffer length. -/
theorem pyReplace_length (needle repl : List Nat)
    (hlen : repl.length = needle.length) :
    ∀ (c : Nat) (buf : List Nat),
      (pyReplace needle repl c buf).length = buf.length := by
  intro c buf
  induction c, buf using pyReplace.induct needle repl with
  | case1 buf => simp [pyReplace]
  | case2 c => simp [pyReplace]
  | case3 c b bs hpre ih =>
    have hle := (prefixRel_of_isPrefixOf hpre).length_le
    simp only [pyReplace, if_pos hpre, List.length_append, ih, List.length_drop,
      List.length_cons, hlen]
    simp only [List.length_cons] at hle
    omega
  | case4 c b bs hpre ih =>
    simp only [pyReplace, if_neg hpre, List.length_cons, ih]

/-- Replacing a needle by itself changes nothing. -/
theorem pyReplace_self (needle : List Nat) :
    ∀ (c : Nat) (buf : List Nat), pyReplace needle needle c buf = buf := by
  intro c buf
  induction c, buf using pyReplace.induct needle needle with
  | case1 buf => simp [pyReplace]
  | case2 c => simp [pyReplace]
  | case3 c b bs hpre ih =>
    obtain ⟨t, ht⟩ := prefixRel_of_isPrefixOf hpre
    simp only [pyReplace, if_pos hpre, ih]
    rw [← ht, List.drop_left]
  | case4 c b bs hpre ih =>
    simp only [pyReplace, if_neg hpre, ih]

/-- If the replacement has a space (32) wherever the needle does, then every
byte position holding 32 in the buffer still holds 32 after replacement. -/
theorem pyReplace_keeps32 (needle repl : List Nat)
    (hlen : repl.length = needle.length)
    (hpres : ∀ i : Nat, needle[i]? = some 32 → repl[i]? = some 32) :
    ∀ (c : Nat) (buf : List Nat) (j : Nat),
      buf[j]? = some 32 → (pyReplace needle repl c buf)[j]? = some 32 := by
  intro c buf
  induction c, buf using pyReplace.induct needle repl with
  | case1 buf =>
    intro j hj
    simp only [pyReplace]
    exact hj
  | case2 c =>
    intro j hj
    simp only [pyReplace]
    exact hj
  | case3 c b bs hpre ih =>
    intro j hj
    have hpfx := prefixRel_of_isPrefixOf hpre
    simp only [pyReplace, if_pos hpre]
    rw [List.getElem?_append]
    by_cases hj2 : j < repl.length
    · rw [if_pos hj2]
      apply hpres
      obtain ⟨t, ht⟩ := hpfx
      rw [← ht, List.getElem?_append, if_pos (hlen ▸ hj2)] at hj
      exact hj
    · rw [if_neg hj2]
      apply ih
      rw [List.getElem?_drop]
      have harith : needle.length + (j - repl.length) = j := by omega
      rw [harith]
      exact hj
  | case4 c b bs hpre ih =>
    intro j hj
    simp only [pyReplace, if_neg hpre]
    cases j with
    | zero =>
      simp only [List.getElem?_cons_zero] at hj ⊢
      exact hj
    | succ n =>
      rw [List.getElem?_cons_succ] at hj ⊢
      exact ih n hj

/-- Every position reported by `occs` is a genuine occurrence. -/
theorem occs_sound (needle : List Nat) :
    ∀ (buf : List Nat) (p : Nat), p ∈ occs needle buf →
      (buf.drop p).take needle.length = needle := by
  intro buf
  induction buf using occs.induct needle with
  | case1 =>
    intro p hp
    simp [occs] at hp
  | case2 b bs h ih =>
    intro p hp
    simp only [occs, dif_pos h] at hp
    rcases List.mem_cons.mp hp with rfl | hp'
    · rw [List.drop_zero]
      exact ( List.prefix_iff_eq_take.mp (prefixRel_of_isPrefixOf h.1)).symm
    · obtain ⟨q, hq, rfl⟩ := List.mem_map.mp hp'
      have hih := ih q hq
      rw [List.drop_drop, Nat.add_comm needle.length q] at hih
      exact hih
  | case3 b bs h ih =>
    intro p hp
    simp only [occs, dif_neg h] at hp
    obtain ⟨q, hq, rfl⟩ := List.mem_map.mp hp
    have hih := ih q hq
    simpa using hih

/-- If the needle occurs anywhere, `occs` reports at least one position. -/
theorem occs_ne_nil (needle : List Nat) (hne : 0 < needle.length) :
    ∀ (buf : List Nat) (p : Nat), (buf.drop p).take needle.length = needle →
      occs needle buf ≠ [] := by
  intro buf
  induction buf using occs.induct needle with
  | case1 =>
    intro p hp h
    have hnil : needle = [] := by simpa using hp.symm
    rw [hnil] at hne
    simp at hne
  | case2 b bs h ih =>
    intro p hp
    simp only [occs, dif_pos h]
    exact List.cons_ne_nil _ _
  | case3 b bs h ih =>
    intro p hp hcontra
    simp only [occs, dif_neg h, List.map_eq_nil_iff] at hcontra
    cases p with
    | zero =>
      rw [List.drop_zero] at hp
      exact h ⟨isPrefixOf_of_prefixRel ( List.prefix_iff_eq_take.mpr hp.symm), hne⟩
    | succ q =>
      exact ih q (by simpa using hp) hcontra

/-- Positions reported by `occs` are strictly increasing with gaps of at
least the needle length: the occurrences do not overlap. -/
theorem occs_gap (needle : List Nat) :
    ∀ buf : List Nat,
      (occs needle buf).Pairwise (fun a b => a + needle.length ≤ b) := by
  intro buf
  induction buf using occs.induct needle with
  | case1 => simp [occs]
  | case2 b bs h ih =>
    simp only [occs, dif_pos h]
    constructor
    · intro q hq
      obtain ⟨q', hq', rfl⟩ := List.mem_map.mp hq
      omega
    · rw [List.pairwise_map]
      exact ih.imp (by intro a b hab; omega)
  | case3 b bs h ih =>
    simp only [occs, dif_neg h]
    rw [List.pairwise_map]
    exact ih.imp (by intro a b hab; omega)

/-- When the needle occurs at exactly one position, `occs` is exactly that
singleton. -/
theorem occs_of_unique (needle : List Nat) (hne : 0 < needle.length)
    (buf : List Nat) (p : Nat)
    (hp : (buf.drop p).take needle.length = needle)
    (huniq : ∀ q : Nat, (buf.drop q).take needle.length = needle → q = p) :
    occs needle buf = [p] := by
  rcases hocc : occs needle buf with _ | ⟨x, xs⟩
  · exact absurd hocc (occs_ne_nil needle hne buf p hp)
  · have hx : x = p :=
      huniq x (occs_sound needle buf x (hocc ▸ List.mem_cons_self x xs))
    rcases xs with _ | ⟨y, ys⟩
    · rw [hx]
    · have hy : y = p :=
        huniq y (occs_sound needle buf y (by rw [hocc]; simp))
      have hgap := occs_gap needle buf
      rw [hocc] at hgap
      have hlt := (List.pairwise_cons.mp hgap).1 y (by simp)
      exfalso
      omega

/-- Any occurrence of a nonempty needle starts strictly before the end of
the buffer, hence within `range (buf.length + 1)`. -/
theorem matches_lt (needle buf : List Nat) (hne : 0 < needle.length) (p : Nat)
    (hp : (buf.drop p).take needle.length = needle) : p < buf.length + 1 := by
  by_contra hcon
  push_neg at hcon
  have hdrop : buf.drop p = [] := List.drop_eq_nil_of_le (by omega)
  rw [hdrop] at hp
  have hnil : needle = [] := by simpa using hp.symm
  rw [hnil] at hne
  simp at hne

/-- A buffer with occurrence count 1 has a unique occurrence position. -/
theorem occCount_eq_one (needle buf : List Nat) (hne : 0 < needle.length)
    (h : occCount needle buf = 1) :
    ∃ p : Nat, (buf.drop p).take needle.length = needle ∧
      ∀ q : Nat, (buf.drop q).take needle.length = needle → q = p := by
  unfold occCount at h
  rw [List.countP_eq_length_filter] at h
  obtain ⟨p, hp⟩ := List.length_eq_one.mp h
  have hpmem : p ∈ List.filter
      (fun p => (buf.drop p).take needle.length == needle)
      (List.range (buf.length + 1)) := by
    rw [hp]
    exact List.mem_singleton.mpr rfl
  have hpin := List.of_mem_filter hpmem
  refine ⟨p, by simpa using hpin, ?_⟩
  intro q hq
  have hqmem : q ∈ List.filter
      (fun p => (buf.drop p).take needle.length == needle)
      (List.range (buf.length + 1)) :=
    List.mem_filter.mpr
      ⟨List.mem_range.mpr (matches_lt needle buf hne q hq), by simpa using hq⟩
  rw [hp] at hqmem
  simpa using hqmem

/-- A buffer with occurrence count 0 has no occurrence at all. -/
theorem occCount_eq_zero (needle buf : List Nat) (hne : 0 < needle.length)
    (h : occCount needle buf = 0) :
    ∀ p : Nat, (buf.drop p).take needle.length ≠ needle := by
  intro p hp
  unfold occCount at h
  rw [List.countP_eq_length_filter, List.length_eq_zero] at h
  have hpmem : p ∈ List.filter
      (fun p => (buf.drop p).take needle.length == needle)
      (List.range (buf.length + 1)) :=
    List.mem_filter.mpr
      ⟨List.mem_range.mpr (matches_lt needle buf hne p hp), by simpa using hp⟩
  rw [h] at hpmem
  simp at hpmem

/-- If the needle occurs nowhere, `occs` is empty. -/
theorem occs_eq_nil (needle : List Nat) (buf : List Nat)
    (h : ∀ p : Nat, (buf.drop p).take needle.length ≠ needle) :
    occs needle buf = [] := by
  rcases hocc : occs needle buf with _ | ⟨x, xs⟩
  · rfl
  · exact absurd (occs_sound needle buf x (hocc ▸ List.mem_cons_self x xs)) (h x)

/-- Replacement is the identity when the nonempty needle never occurs. -/
theorem pyReplace_of_occs_nil (needle repl : List Nat)
    (hne : 0 < needle.length) :
    ∀ (c : Nat) (buf : List Nat), occs needle buf = [] →
      pyReplace needle repl c buf = buf := by
  intro c buf
  induction c, buf using pyReplace.induct needle repl with
  | case1 buf =>
    intro _
    simp [pyReplace]
  | case2 c =>
    intro _
    simp [pyReplace]
  | case3 c b bs hpre ih =>
    intro hocc
    simp only [occs, dif_pos (And.intro hpre hne)] at hocc
    exact absurd hocc (List.cons_ne_nil _ _)
  | case4 c b bs hpre ih =>
    intro hocc
    have hcond : ¬(needle.isPrefixOf (b :: bs) = true ∧ 0 < needle.length) :=
      fun hx => hpre hx.1
    simp only [occs, dif_neg hcond, List.map_eq_nil_iff] at hocc
    simp only [pyReplace, if_neg hpre]
    rw [ih hocc]

/-- Unfolding equation: no position, no change. -/
theorem replaceAtPositions_nil (repl buf : List Nat) :
    replaceAtPositions repl [] buf = buf := rfl

/-- Unfolding equation: splice at the first position, then continue. -/
theorem replaceAtPositions_cons (repl : List Nat) (p : Nat)
    (ps : List Nat) (buf : List Nat) :
    replaceAtPositions repl (p :: ps) buf
      = replaceAtPositions repl ps (writeAt repl p buf) := rfl

/-- Splicing past a fixed block of bytes leaves the block alone. -/
theorem writeAt_shift (repl pre rest : List Nat) (p : Nat) :
    writeAt repl (p + pre.length) (pre ++ rest) = pre ++ writeAt repl p rest := by
  unfold writeAt
  rw [List.take_append_eq_append_take, List.drop_append_eq_append_drop,
    List.take_of_length_le (Nat.le_add_left _ _),
    List.drop_eq_nil_of_le (by omega)]
  have h1 : p + pre.length - pre.length = p := by omega
  have h2 : p + pre.length + repl.length - pre.length = p + repl.length := by
    omega
  rw [h1, h2]
  simp [List.append_assoc]

/-- Splicing at a list of positions shifted past a fixed block of bytes
leaves the block alone. -/
theorem replaceAtPositions_shift (repl pre : List Nat) (ps : List Nat) :
    ∀ rest : List Nat,
      replaceAtPositions repl (ps.map (fun p => p + pre.length)) (pre ++ rest)
        = pre ++ replaceAtPositions repl ps rest := by
  induction ps with
  | nil =>
    intro rest
    rfl
  | cons p ps ih =>
    intro rest
    rw [List.map_cons, replaceAtPositions_cons, replaceAtPositions_cons,
      writeAt_shift]
    exact ih (writeAt repl p rest)

/-- Refinement: `bytes.replace` with a nonempty needle and an equal-length
replacement splices the replacement at exactly the first `c` left-to-right
non-overlapping occurrence positions. -/
theorem pyReplace_eq_replaceAtPositions (needle repl : List Nat)
    (hne : 0 < needle.length) (hlen : repl.length = needle.length) :
    ∀ (c : Nat) (buf : List Nat),
      pyReplace needle repl c buf
        = replaceAtPositions repl ((occs needle buf).take c) buf := by
  intro c buf
  induction c, buf using pyReplace.induct needle repl with
  | case1 buf => simp [pyReplace, replaceAtPositions]
  | case2 c => simp [pyReplace, occs, replaceAtPositions]
  | case3 c b bs hpre ih =>
    simp only [pyReplace, if_pos hpre]
    simp only [occs, dif_pos (And.intro hpre hne)]
    simp only [List.take_succ_cons]
    rw [replaceAtPositions_cons]
    have hw : writeAt repl 0 (b :: bs) = repl ++ (b :: bs).drop needle.length := by
      unfold writeAt
      simp [hlen]
    rw [hw, ← List.map_take, ih]
    have hsh := replaceAtPositions_shift repl repl
      ((occs needle ((b :: bs).drop needle.length)).take c)
      ((b :: bs).drop needle.length)
    rw [hlen] at hsh
    exact hsh.symm
  | case4 c b bs hpre ih =>
    simp only [pyReplace, if_neg hpre]
    have hcond : ¬(needle.isPrefixOf (b :: bs) = true ∧ 0 < needle.length) :=
      fun hx => hpre hx.1
    simp only [occs, dif_neg hcond]
    rw [← List.map_take, ih]
    have hsh := replaceAtPositions_shift repl [b]
      ((occs needle bs).take (c + 1)) bs
    simpa using hsh.symm

/-- Splicing an equal-length block over an occurrence of the needle swaps
the needle's contribution to the byte sum for the block's contribution. -/
theorem sum_writeAt (needle l buf : List Nat) (p : Nat)
    (hmatch : (buf.drop p).take needle.length = needle)
    (hlen : l.length = needle.length) :
    (writeAt l p buf).sum + needle.sum = buf.sum + l.sum := by
  have h3 : buf.drop p = needle ++ buf.drop (p + needle.length) := by
    conv_lhs => rw [← List.take_append_drop needle.length (buf.drop p)]
    rw [hmatch, List.drop_drop]
  have h2 : buf.sum = (buf.take p).sum + needle.sum
      + (buf.drop (p + needle.length)).sum := by
    conv_lhs => rw [← List.take_append_drop p buf]
    rw [List.sum_append, h3, List.sum_append]
    omega
  have h1 : (writeAt l p buf).sum = (buf.take p).sum + l.sum
      + (buf.drop (p + needle.length)).sum := by
    unfold writeAt
    rw [hlen, List.sum_append, List.sum_append]
  omega

/-- A valid splice preserves the buffer length. -/
theorem writeAt_length (repl buf : List Nat) (p : Nat)
    (h : p + repl.length ≤ buf.length) :
    (writeAt repl p buf).length = buf.length := by
  unfold writeAt
  simp only [List.length_append, List.length_take, List.length_drop]
  omega

/-- A splice changes nothing strictly before or at-or-after the spliced
range. -/
theorem writeAt_getElem_outside (repl buf : List Nat) (p : Nat)
    (h : p + repl.length ≤ buf.length) (j : Nat)
    (hj : j < p ∨ p + repl.length ≤ j) :
    (writeAt repl p buf)[j]? = buf[j]? := by
  have htk : (buf.take p).length = p := by
    rw [List.length_take]
    omega
  have htk2 : (buf.take p ++ repl).length = p + repl.length := by
    rw [List.length_append, htk]
  unfold writeAt
  rcases hj with hj | hj
  · rw [List.getElem?_append, htk2, if_pos (by omega),
      List.getElem?_append, htk, if_pos hj, List.getElem?_take, if_pos hj]
  · rw [List.getElem?_append, htk2, if_neg (by omega), List.getElem?_drop]
    have harith : p + repl.length + (j - (p + repl.length)) = j := by omega
    rw [harith]

/-- Inside the spliced range the result holds the replacement bytes. -/
theorem writeAt_getElem_inside (repl buf : List Nat) (p : Nat)
    (h : p + repl.length ≤ buf.length) (i : Nat) (hi : i < repl.length) :
    (writeAt repl p buf)[p + i]? = repl[i]? := by
  have htk : (buf.take p).length = p := by
    rw [List.length_take]
    omega
  have htk2 : (buf.take p ++ repl).length = p + repl.length := by
    rw [List.length_append, htk]
  unfold writeAt
  rw [List.getElem?_append, htk2, if_pos (by omega),
    List.getElem?_append, htk, if_neg (by omega)]
  have harith : p + i - p = i := by omega
  rw [harith]

/-- Splicing at a list of valid positions preserves the buffer length. -/
theorem replaceAtPositions_length (repl : List Nat) :
    ∀ (ps : List Nat) (buf : List Nat),
      (∀ p ∈ ps, p + repl.length ≤ buf.length) →
      (replaceAtPositions repl ps buf).length = buf.length := by
  intro ps
  induction ps with
  | nil =>
    intro buf _
    rfl
  | cons q ps ih =>
    intro buf hv
    rw [replaceAtPositions_cons]
    have hq := hv q (List.mem_cons_self q ps)
    have hw := writeAt_length repl buf q hq
    have hvt : ∀ p ∈ ps, p + repl.length ≤ (writeAt repl q buf).length := by
      intro p hp
      rw [hw]
      exact hv p (List.mem_cons_of_mem q hp)
    rw [ih (writeAt repl q buf) hvt, hw]

/-- Splicing at a list of valid positions leaves every byte outside all the
spliced ranges unchanged. -/
theorem replaceAtPositions_frame (repl : List Nat) :
    ∀ (ps : List Nat) (buf : List Nat) (j : Nat),
      (∀ p ∈ ps, p + repl.length ≤ buf.length) →
      (∀ p ∈ ps, j < p ∨ p + repl.length ≤ j) →
      (replaceAtPositions repl ps buf)[j]? = buf[j]? := by
  intro ps
  induction ps with
  | nil =>
    intro buf j _ _
    rfl
  | cons q ps ih =>
    intro buf j hv hj
    rw [replaceAtPositions_cons]
    have hq := hv q (List.mem_cons_self q ps)
    have hw := writeAt_length repl buf q hq
    have hvt : ∀ p ∈ ps, p + repl.length ≤ (writeAt repl q buf).length := by
      intro p hp
      rw [hw]
      exact hv p (List.mem_cons_of_mem q hp)
    have hjt : ∀ p ∈ ps, j < p ∨ p + repl.length ≤ j := by
      intro p hp
      exact hj p (List.mem_cons_of_mem q hp)
    rw [ih (writeAt repl q buf) j hvt hjt]
    exact writeAt_getElem_outside repl buf q hq j (hj q (List.mem_cons_self q ps))

/-- Splicing at a list of valid, non-overlapping increasing positions puts
the replacement bytes at each of those positions. -/
theorem replaceAtPositions_content (repl : List Nat) :
    ∀ (ps : List Nat) (buf : List Nat),
      (∀ p ∈ ps, p + repl.length ≤ buf.length) →
      ps.Pairwise (fun a b => a + repl.length ≤ b) →
      ∀ p ∈ ps, ∀ i : Nat, i < repl.length →
        (replaceAtPositions repl ps buf)[p + i]? = repl[i]? := by
  intro ps
  induction ps with
  | nil =>
    intro buf _ _ p hp
    exact absurd hp (List.not_mem_nil p)
  | cons q ps ih =>
    intro buf hv hsorted p hp i hi
    rw [replaceAtPositions_cons]
    have hq := hv q (List.mem_cons_self q ps)
    have hw := writeAt_length repl buf q hq
    have hvtail : ∀ x ∈ ps, x + repl.length ≤ (writeAt repl q buf).length := by
      intro x hx
      rw [hw]
      exact hv x (List.mem_cons_of_mem q hx)
    rcases List.mem_cons.mp hp with rfl | hp'
    · have hout : ∀ x ∈ ps, p + i < x ∨ x + repl.length ≤ p + i := by
        intro x hx
        have := (List.pairwise_cons.mp hsorted).1 x hx
        omega
      rw [replaceAtPositions_frame repl ps (writeAt repl p buf) (p + i)
        hvtail hout]
      exact writeAt_getElem_inside repl buf p hq i hi
    · exact ih (writeAt repl q buf) hvtail (List.pairwise_cons.mp hsorted).2
        p hp' i hi

/-- A pointwise description of a segment pins down its `take`-`drop` form. -/
theorem take_drop_eq_of_getElem (res repl : List Nat) (p : Nat)
    (_hlen : p + repl.length ≤ res.length)
    (h : ∀ i : Nat, i < repl.length → res[p + i]? = repl[i]?) :
    (res.drop p).take repl.length = repl := by
  apply List.ext_getElem?
  intro n
  by_cases hn : n < repl.length
  · rw [List.getElem?_take, if_pos hn, List.getElem?_drop]
    exact h n hn
  · rw [List.getElem?_take, if_neg hn,
      List.getElem?_eq_none (by omega)]

/-- Each reported occurrence of a nonempty needle fits inside the buffer. -/
theorem occs_valid (needle buf : List Nat) (hne : 0 < needle.length) :
    ∀ q ∈ occs needle buf, q + needle.length ≤ buf.length := by
  intro q hq
  have h := occs_sound needle buf q hq
  have hl := congrArg List.length h
  simp only [List.length_take, List.length_drop] at hl
  rw [min_eq_left_iff] at hl
  omega

/-- C3: for every buffer (including the empty one), `checksum` equals the sum
of the unsigned byte values reduced modulo 65536, hence lies in [0, 65535];
the empty buffer has checksum 0 and the buffer 01 02 FF has checksum 258. -/
theorem checksum_contract :
    (∀ B : List Nat, checksum B = B.sum % 65536 ∧ checksum B ≤ 65535)
      ∧ checksum [] = 0 ∧ checksum [1, 2, 255] = 258 := by
  refine ⟨fun B => ⟨checksum_eq_sum_mod B, ?_⟩, by decide, by decide⟩
  rw [checksum_eq_sum_mod]
  omega

/-- C5: buffer length is invariant across both transformations: the band
substitution preserves length, and for every target checksum the
reconciliation succeeds with a buffer of the same length as its input. -/
theorem transformations_length_invariant (buffer : List Nat) (t : Nat) :
    (replace_band_limits buffer).length = buffer.length
      ∧ ∃ r, fixup_checksum buffer t = some r ∧ r.length = buffer.length := by
  constructor
  · exact pyReplace_length _ _ (by decide) 3 buffer
  · obtain ⟨l, hl, hlen, _, _⟩ :=
      perturb_total original ((t : Int) - (checksum buffer : Int)) (by decide)
    refine ⟨pyReplace original l 1 buffer, ?_, ?_⟩
    · simp only [fixup_checksum]
      rw [hl, Option.map_some']
    · exact pyReplace_length original l hlen 1 buffer

/-- C6: every non-space anchor byte is an uppercase ASCII letter in [65, 90];
for every difference, the perturbation of the anchor succeeds with only
valid byte values (at most 255), so for every buffer and target checksum
`fixup_checksum` never reaches the out-of-range error. -/
theorem reconciliation_bytes_valid :
    (∀ b ∈ original, b = 32 ∨ (65 ≤ b ∧ b ≤ 90))
      ∧ (∀ d : Int, ∃ l, perturb d original = some l ∧
          l.length = original.length ∧ ∀ x ∈ l, x ≤ 255)
      ∧ ∀ (buffer : List Nat) (t : Nat), (fixup_checksum buffer t).isSome := by
  refine ⟨by decide, ?_, ?_⟩
  · intro d
    obtain ⟨l, hl, hlen, hle, _⟩ := perturb_total original d (by decide)
    exact ⟨l, hl, hlen, hle⟩
  · intro buffer t
    obtain ⟨l, hl, _, _, _⟩ :=
      perturb_total original ((t : Int) - (checksum buffer : Int)) (by decide)
    simp only [fixup_checksum]
    rw [hl]
    rfl

/-- C7: the perturbation loop leaves every anchor byte equal to the space
character (32) unchanged, and consequently every byte position of the input
buffer holding 32 still holds 32 in the buffer `fixup_checksum` returns. -/
theorem spaces_never_altered :
    (∀ (d : Int) (l : List Nat), perturb d original = some l →
        ∀ i : Nat, original[i]? = some 32 → l[i]? = some 32)
      ∧ ∀ (buffer : List Nat) (t : Nat) (r : List Nat),
          fixup_checksum buffer t = some r →
          ∀ j : Nat, buffer[j]? = some 32 → r[j]? = some 32 := by
  constructor
  · intro d l hl i hi
    obtain ⟨l', hl', _, _, hsk⟩ := perturb_total original d (by decide)
    rw [hl] at hl'
    obtain rfl : l = l' := by injection hl'
    exact hsk i hi
  · intro buffer t r hr j hj
    obtain ⟨l, hl, hlen, _, hsk⟩ :=
      perturb_total original ((t : Int) - (checksum buffer : Int)) (by decide)
    simp only [fixup_checksum] at hr
    rw [hl, Option.map_some'] at hr
    obtain rfl : pyReplace original l 1 buffer = r := by injection hr
    exact pyReplace_keeps32 original l hlen hsk 1 buffer j hj

/-- C8: reconciling a buffer towards its own checksum is the identity: the
difference is zero, the loop stops at once, the perturbed anchor equals the
original anchor, and replacing the anchor by itself returns the buffer. -/
theorem fixup_checksum_identity (B : List Nat) :
    fixup_checksum B (checksum B) = some B := by
  simp only [fixup_checksum, sub_self]
  rw [perturb_zero, Option.map_some', pyReplace_self]

/-- C10: when the buffer contains no occurrence of the anchor at all,
`fixup_checksum` returns the buffer unchanged for every target checksum. -/
theorem fixup_no_anchor_identity (buffer : List Nat) (t : Nat)
    (h : occCount original buffer = 0) :
    fixup_checksum buffer t = some buffer := by
  have hno := occCount_eq_zero original buffer (by decide) h
  have hocc : occs original buffer = [] := occs_eq_nil original buffer hno
  obtain ⟨l, hl, _, _, _⟩ :=
    perturb_total original ((t : Int) - (checksum buffer : Int)) (by decide)
  simp only [fixup_checksum]
  rw [hl, Option.map_some',
    pyReplace_of_occs_nil original l (by decide) 1 buffer hocc]

/-- C10 witness: a concrete anchor-free buffer passes through unchanged. -/
theorem fixup_no_anchor_identity_witness :
    occCount original [1, 2, 3] = 0
      ∧ fixup_checksum [1, 2, 3] 42 = some [1, 2, 3] :=
  ⟨by decide, fixup_no_anchor_identity [1, 2, 3] 42 (by decide)⟩

/-- C1: for a buffer containing exactly one occurrence of the anchor and any
target checksum in [0, 65535] whose distance from the buffer checksum is at
most 32 per non-space anchor byte, `fixup_checksum` returns a buffer with
checksum exactly the target and the same length as the input. -/
theorem checksum_reconciliation_correct (buffer : List Nat) (t : Nat)
    (hone : occCount original buffer = 1)
    (ht : t ≤ 65535)
    (hbudget : ((t : Int) - (checksum buffer : Int)).natAbs
      ≤ 32 * original.countP (fun b => b != 32)) :
    ∃ r, fixup_checksum buffer t = some r ∧ checksum r = t
      ∧ r.length = buffer.length := by
  obtain ⟨p, hp, huniq⟩ := occCount_eq_one original buffer (by decide) hone
  obtain ⟨l, hl, hlen, _, _⟩ :=
    perturb_total original ((t : Int) - (checksum buffer : Int)) (by decide)
  have hsum := perturb_sum original ((t : Int) - (checksum buffer : Int))
    hbudget l hl
  have hocc : occs original buffer = [p] :=
    occs_of_unique original (by decide) buffer p hp huniq
  refine ⟨pyReplace original l 1 buffer, ?_, ?_, ?_⟩
  · simp only [fixup_checksum]
    rw [hl, Option.map_some']
  · have hrw : pyReplace original l 1 buffer = writeAt l p buffer := by
      rw [pyReplace_eq_replaceAtPositions original l (by decide) hlen 1 buffer,
        hocc]
      rfl
    rw [hrw, checksum_eq_sum_mod]
    have hsw := sum_writeAt original l buffer p hp hlen
    have hcb := checksum_eq_sum_mod buffer
    rw [hcb] at hsum
    omega
  · exact pyReplace_length original l hlen 1 buffer

/-- C1 witness: the anchor itself as the buffer, with a target 100 above its
checksum. -/
theorem checksum_reconciliation_correct_witness :
    occCount original original = 1 ∧ (1454 : Nat) ≤ 65535
      ∧ ((1454 : Int) - (checksum original : Int)).natAbs
          ≤ 32 * original.countP (fun b => b != 32)
      ∧ ∃ r, fixup_checksum original 1454 = some r ∧ checksum r = 1454
          ∧ r.length = original.length :=
  ⟨by decide, by decide, by decide,
    checksum_reconciliation_correct original 1454 (by decide) (by decide)
      (by decide)⟩

/-- C2: on every input buffer, the driver either writes a buffer whose
checksum equals the input buffer's checksum, or exits with code 3 without
writing; it never raises and never writes a mismatching buffer. -/
theorem pipeline_verified_or_exit3 (buffer : List Nat) :
    ∃ res, main_pipeline buffer = some res
      ∧ (∀ out, res = MainResult.writes out → checksum out = checksum buffer)
      ∧ (∀ code, res = MainResult.exits code → code = 3) := by
  obtain ⟨l, hl, _, _, _⟩ :=
    perturb_total original
      ((checksum buffer : Int)
        - (checksum (replace_band_limits buffer) : Int)) (by decide)
  have hfix : fixup_checksum (replace_band_limits buffer) (checksum buffer)
      = some (pyReplace original l 1 (replace_band_limits buffer)) := by
    simp only [fixup_checksum]
    rw [hl, Option.map_some']
  simp only [main_pipeline]
  rw [hfix, Option.map_some']
  by_cases hck :
      checksum (pyReplace original l 1 (replace_band_limits buffer))
        ≠ checksum buffer
  · rw [if_pos hck]
    refine ⟨MainResult.exits 3, rfl, ?_, ?_⟩
    · intro out hout
      exact MainResult.noConfusion hout
    · intro code hcode
      injection hcode with hc
      exact hc.symm
  · rw [if_neg hck]
    push_neg at hck
    refine ⟨MainResult.writes
      (pyReplace original l 1 (replace_band_limits buffer)), rfl, ?_, ?_⟩
    · intro out hout
      injection hout with hc
      rw [← hc]
      exact hck
    · intro code hcode
      exact MainResult.noConfusion hcode

/-- C4: band-limit substitution splices the 4-byte replacement at exactly
the first three left-to-right non-overlapping occurrence positions of the
needle DC 05 A4 06 (all of them when fewer exist, with no error), those
positions then hold A0 05 68 06, and every byte outside the replaced
occurrences is unchanged. -/
theorem replace_band_limits_spec (buffer : List Nat) :
    replace_band_limits buffer
        = replaceAtPositions [0xA0, 0x05, 0x68, 0x06]
            ((occs [0xDC, 0x05, 0xA4, 0x06] buffer).take 3) buffer
      ∧ (∀ p ∈ (occs [0xDC, 0x05, 0xA4, 0x06] buffer).take 3,
          ((replace_band_limits buffer).drop p).take 4
            = [0xA0, 0x05, 0x68, 0x06])
      ∧ ∀ j : Nat,
          (∀ p ∈ (occs [0xDC, 0x05, 0xA4, 0x06] buffer).take 3,
            j < p ∨ p + 4 ≤ j) →
          (replace_band_limits buffer)[j]? = buffer[j]? := by
  have hrefine : replace_band_limits buffer
      = replaceAtPositions [0xA0, 0x05, 0x68, 0x06]
          ((occs [0xDC, 0x05, 0xA4, 0x06] buffer).take 3) buffer := by
    simp only [replace_band_limits]
    exact pyReplace_eq_replaceAtPositions [0xDC, 0x05, 0xA4, 0x06]
      [0xA0, 0x05, 0x68, 0x06] (by decide) (by decide) 3 buffer
  have hvalid : ∀ p ∈ (occs [0xDC, 0x05, 0xA4, 0x06] buffer).take 3,
      p + 4 ≤ buffer.length := by
    intro p hp
    exact occs_valid [0xDC, 0x05, 0xA4, 0x06] buffer (by decide) p
      (List.mem_of_mem_take hp)
  have hsorted : ((occs [0xDC, 0x05, 0xA4, 0x06] buffer).take 3).Pairwise
      (fun a b => a + 4 ≤ b) :=
    List.Pairwise.sublist (List.take_sublist 3 _)
      (occs_gap [0xDC, 0x05, 0xA4, 0x06] buffer)
  refine ⟨hrefine, ?_, ?_⟩
  · intro p hp
    rw [hrefine]
    refine take_drop_eq_of_getElem _ [0xA0, 0x05, 0x68, 0x06] p ?_ ?_
    · rw [replaceAtPositions_length [0xA0, 0x05, 0x68, 0x06] _ buffer hvalid]
      exact hvalid p hp
    · intro i hi
      exact replaceAtPositions_content [0xA0, 0x05, 0x68, 0x06] _ buffer
        hvalid hsorted p hp i hi
  · intro j hj
    rw [hrefine]
    exact replaceAtPositions_frame [0xA0, 0x05, 0x68, 0x06] _ buffer j
      hvalid hj

/-- C9 counterexample: the anchor is 19 bytes long, not 20. -/
theorem anchor_length_ne_20 : original.length = 19 ∧ original.length ≠ 20 :=
  ⟨by decide, by decide⟩

/-- C9 (amended): the reconciliation anchor is the exact ASCII byte sequence
of the text "ALL RIGHTS RESERVED", which is 19 bytes long, and
`fixup_checksum` replaces only its first occurrence in the buffer. -/
theorem anchor_spec_amended :
    original = "ALL RIGHTS RESERVED".toList.map Char.toNat
      ∧ original.length = 19
      ∧ ∀ (buffer : List Nat) (t : Nat),
          fixup_checksum buffer t
            = (perturb ((t : Int) - (checksum buffer : Int)) original).map
                (fun l =>
                  replaceAtPositions l ((occs original buffer).take 1) buffer) := by
  refine ⟨by decide, by decide, ?_⟩
  intro buffer t
  simp only [fixup_checksum]
  obtain ⟨l, hl, hlen, _, _⟩ :=
    perturb_total original ((t : Int) - (checksum buffer : Int)) (by decide)
  rw [hl, Option.map_some', Option.map_some']
  congr 1
  exact pyReplace_eq_replaceAtPositions original l (by decide) hlen 1 buffer

end SM50
